import Mathlib

/-!
Verification development for the docker-network-viz topology core.

The Go sources embedded here:
- internal/models/container.go   (ContainerInfo and its add/has/sorted operations)
- internal/docker (client code)  (sanitizeContainerName, BuildContainerMap,
                                  BuildNetworkToContainersMap)
- internal/output/reachability.go (ReachableContainers, PrintContainerTree)
- internal/output (tree symbols, PrintNetworkTree)
- cmd/visualize.go               (removeAliasesFromContainers)

Modelling conventions:
- Go strings are Lean Strings; Go's byte-wise string comparison coincides
  with code-point lexicographic order on UTF-8 data, modelled by strLe below.
- Go maps are modelled as association lists (network buckets, where the only
  observations are lookup-with-zero-value and key presence) or as update
  functions (the name-keyed container map, observed only through lookups).
  Go map iteration order never influences the results proved here: the
  container map is only read pointwise, and each network bucket is sorted
  before it is returned.
- Go's sort.Slice / sort.Strings are modelled by mergeSort.  sort.Slice is
  not stable, but every comparator used by the program compares names only,
  and any two bucket entries with equal names are equal values (they are
  copies of the same container-map entry), so every sort of a bucket yields
  the same list and mergeSort is a faithful model.
- Writers: each renderer returns the list of lines it writes; every Go
  Fprintf of the renderers ends in exactly one newline, so the text sent to
  the sink is the concatenation of the lines each followed by a newline
  (renderLines).  The style functions are identity (color disabled), which
  is the behavior for every non-terminal sink.
-/

/-- Boolean lexicographic comparison on character lists: model of Go's
byte-wise string comparison (on UTF-8 data, byte order and code-point order
agree). -/
def strLeB : List Char → List Char → Bool
  | [], _ => true
  | _ :: _, [] => false
  | a :: as, b :: bs => if a = b then strLeB as bs else decide (a < b)

/-- Go string comparison s1 less-or-equal s2, as used by sort.Strings and the
name comparators of sort.Slice. -/
def strLe (a b : String) : Bool := strLeB a.data b.data

/-- The comparison as a decidable relation, for sorting. -/
def strLeP (a b : String) : Prop := strLe a b = true

instance : DecidableRel strLeP :=
  fun a b => inferInstanceAs (Decidable (strLe a b = true))

/-- Model of sort.Strings: sort a string list ascending.  The Go sort is
modelled by insertion sort; only the result matters, and any two sorts by
this total order agree on the lists sorted in this development (entries
with equal keys are equal). -/
def sortStrings (l : List String) : List String := l.insertionSort strLeP

/-- ContainerInfo from internal/models/container.go: a container's name, its
network-scoped aliases and the networks it is connected to. -/
structure ContainerInfo where
  Name : String
  Aliases : List String
  Networks : List String
deriving DecidableEq

/-- NewContainerInfo from internal/models/container.go: name fixed, empty
alias and network lists. -/
def NewContainerInfo (name : String) : ContainerInfo :=
  { Name := name, Aliases := [], Networks := [] }

/-- AddAlias from internal/models/container.go.  The Go method mutates the
receiver and returns a Bool; the model returns the updated record and the
Bool. -/
def ContainerInfo.addAlias (c : ContainerInfo) (a : String) : ContainerInfo × Bool :=
  if c.Aliases.contains a then (c, false)
  else ({ c with Aliases := c.Aliases ++ [a] }, true)

/-- AddNetwork from internal/models/container.go, same shape as AddAlias. -/
def ContainerInfo.addNetwork (c : ContainerInfo) (n : String) : ContainerInfo × Bool :=
  if c.Networks.contains n then (c, false)
  else ({ c with Networks := c.Networks ++ [n] }, true)

/-- HasNetwork from internal/models/container.go. -/
def ContainerInfo.hasNetwork (c : ContainerInfo) (n : String) : Bool :=
  c.Networks.contains n

/-- HasAlias from internal/models/container.go. -/
def ContainerInfo.hasAlias (c : ContainerInfo) (a : String) : Bool :=
  c.Aliases.contains a

/-- SortedAliases from internal/models/container.go: sorted copy of the
alias list. -/
def ContainerInfo.sortedAliases (c : ContainerInfo) : List String :=
  sortStrings c.Aliases

/-- SortedNetworks from internal/models/container.go: sorted copy of the
network list. -/
def ContainerInfo.sortedNetworks (c : ContainerInfo) : List String :=
  sortStrings c.Networks

/-- NetworkInfo from internal/models (network model file): name and driver. -/
structure NetworkInfo where
  Name : String
  Driver : String
deriving DecidableEq

/-- EndpointSettings: the per-network membership descriptor of a raw Docker
container record; the core reads only its alias list. -/
structure EndpointSettings where
  Aliases : List String
deriving DecidableEq

/-- Raw Docker container record (types.Container) as consumed by the core:
the Names list and the NetworkSettings.Networks map from network name to an
optional (possibly nil) endpoint-settings pointer.  The Go map is modelled
as an association list; a Go map has no duplicate keys, which theorems state
as a Nodup hypothesis where it matters. -/
structure RawContainer where
  Names : List String
  Networks : List (String × Option EndpointSettings)
deriving DecidableEq

/-- Model of strings.TrimPrefix(s, slash): remove one leading slash
character if present. -/
def trimOneSlash (s : String) : String :=
  match s.data with
  | '/' :: rest => ⟨rest⟩
  | _ => s

/-- sanitizeContainerName from the docker package: empty name list resolves
to the empty string, otherwise the first entry with one leading slash
stripped. -/
def sanitizeContainerName (names : List String) : String :=
  match names with
  | [] => ""
  | n :: _ => trimOneSlash n

/-- The body of the per-record loop shared by BuildContainerMap and
ConvertToContainerInfo: add the network name, then (when the settings
pointer is not nil) every alias of the membership. -/
def addEndpoint (ci : ContainerInfo) (netName : String)
    (settings : Option EndpointSettings) : ContainerInfo :=
  let ci1 := (ci.addNetwork netName).1
  match settings with
  | none => ci1
  | some s => s.Aliases.foldl (fun c a => (c.addAlias a).1) ci1

/-- The ContainerInfo built from one raw record by BuildContainerMap's loop:
start from NewContainerInfo of the sanitized name, then fold over the
record's network map entries. -/
def buildInfo (cont : RawContainer) : ContainerInfo :=
  cont.Networks.foldl (fun ci p => addEndpoint ci p.1 p.2)
    (NewContainerInfo (sanitizeContainerName cont.Names))

/-- BuildContainerMap from the docker package: name-keyed map of
ContainerInfo, written record by record (containerMap[name] = ci).  The Go
map is modelled as its lookup function. -/
def buildContainerMap (containers : List RawContainer) : String → Option ContainerInfo :=
  containers.foldl
    (fun m cont =>
      let name := sanitizeContainerName cont.Names
      fun k => if k = name then some (buildInfo cont) else m k)
    (fun _ => none)

/-- Network-to-containers map: association list from network name to its
bucket of ContainerInfo values, modelling the Go map
map[string][]models.ContainerInfo. -/
abbrev NetBuckets := List (String × List ContainerInfo)

/-- Go map read m[k] with zero value: the bucket of k, or the empty bucket
when k is not a key. -/
def netLookup (m : NetBuckets) (k : String) : List ContainerInfo :=
  match m.find? (fun p => p.1 == k) with
  | some p => p.2
  | none => []

/-- Go map write m[k] = append(m[k], v): extend the bucket of k, creating
the key when absent. -/
def netAppend (m : NetBuckets) (k : String) (v : ContainerInfo) : NetBuckets :=
  if m.any (fun p => p.1 == k) then
    m.map (fun p => if p.1 == k then (p.1, p.2 ++ [v]) else p)
  else m ++ [(k, [v])]

/-- Name comparison of ContainerInfo values as a decidable relation. -/
def nameLeP (a b : ContainerInfo) : Prop := strLe a.Name b.Name = true

instance : DecidableRel nameLeP :=
  fun a b => inferInstanceAs (Decidable (strLe a.Name b.Name = true))

/-- Sort a bucket ascending by container name, modelling the sort.Slice call
of BuildNetworkToContainersMap (comparator on names only). -/
def sortByName (l : List ContainerInfo) : List ContainerInfo :=
  l.insertionSort nameLeP

/-- BuildNetworkToContainersMap from the docker package: build the container
map first, then for each record and each of its network-map entries append
a copy of the finished container map's value for that record's name into the
network's bucket; finally sort every bucket by name. -/
def buildNetworkToContainersMap (containers : List RawContainer) : NetBuckets :=
  let containerMap := buildContainerMap containers
  let appended := containers.foldl
    (fun m cont =>
      let name := sanitizeContainerName cont.Names
      let ci := (containerMap name).getD (NewContainerInfo name)
      cont.Networks.foldl (fun m2 p => netAppend m2 p.1 ci) m)
    []
  appended.map (fun p => (p.1, sortByName p.2))

/-- ReachableContainers from internal/output/reachability.go: the names of
the entries of the network's bucket other than self, sorted ascending. -/
def ReachableContainers (self network : String) (netMap : NetBuckets) : List String :=
  sortStrings (((netLookup netMap network).filter (fun c => c.Name ≠ self)).map (fun c => c.Name))

/-- removeAliasesFromContainers from cmd/visualize.go: fresh list of
same-name, same-networks records with empty alias lists. -/
def removeAliasesFromContainers (containers : List ContainerInfo) : List ContainerInfo :=
  containers.map (fun c => { Name := c.Name, Aliases := [], Networks := c.Networks })

/-- Tree glyph for a non-last sibling. -/
def TreeBranch : String := "├──"

/-- Tree glyph for a last sibling. -/
def TreeEnd : String := "└──"

/-- Continuation indent under a non-last sibling. -/
def TreeVertical : String := "│   "

/-- Continuation indent under a last sibling. -/
def TreeSpace : String := "    "

/-- Alias lines of one container block of PrintNetworkTree: one line per
alias, BRANCH-glyphed except the last alias which is END-glyphed (the Go
loop tests j == len-1, rendered here as recursion whose singleton case is
the last iteration). -/
def aliasLines (ind : String) : List String → List String
  | [] => []
  | [a] => [ind ++ TreeEnd ++ " alias: " ++ a]
  | a :: a2 :: t => (ind ++ TreeBranch ++ " alias: " ++ a) :: aliasLines ind (a2 :: t)

/-- Container blocks of PrintNetworkTree: for each container of the sorted
list, its name line with BRANCH, or END when last, then its alias lines
indented with VERTICAL, or SPACE when last. -/
def containerBlocks : List ContainerInfo → List String
  | [] => []
  | [c] => (TreeEnd ++ " " ++ c.Name) :: aliasLines TreeSpace c.sortedAliases
  | c :: c2 :: t =>
    ((TreeBranch ++ " " ++ c.Name) :: aliasLines TreeVertical c.sortedAliases)
      ++ containerBlocks (c2 :: t)

/-- PrintNetworkTree from the output package, as the list of lines written:
header, then either the no-containers line, or one block per container of
the name-sorted copy of the list. -/
def printNetworkTree (net : NetworkInfo) (containers : List ContainerInfo) : List String :=
  let header := "Network: " ++ net.Name ++ " (" ++ net.Driver ++ ")"
  if containers.isEmpty then
    [header, TreeEnd ++ " (no containers)"]
  else
    header :: containerBlocks (sortByName containers)

/-- Reachability lines of one network block of PrintContainerTree: the
single none line when nothing is reachable, else one line per reachable
name, BRANCH-glyphed except the last which is END-glyphed; every line
carries the continuation indent plus four extra spaces. -/
def connectsLines (ind : String) : List String → List String
  | [] => [ind ++ "    " ++ TreeEnd ++ " (none)"]
  | [o] => [ind ++ "    " ++ TreeEnd ++ " " ++ o]
  | o :: o2 :: t => (ind ++ "    " ++ TreeBranch ++ " " ++ o) :: connectsLines ind (o2 :: t)

/-- One network block of PrintContainerTree: the network line with glyph g,
the connects-to label line, and the reachability lines, where g and the
continuation indent ind depend on whether the network is last. -/
def netBlock (selfName : String) (netMap : NetBuckets) (g ind net : String) : List String :=
  (g ++ " Network: " ++ net) ::
  (ind ++ TreeEnd ++ " connects to:") ::
  connectsLines ind (ReachableContainers selfName net netMap)

/-- Network blocks of PrintContainerTree: BRANCH and VERTICAL for every
network except the last, which gets END and SPACE (the Go loop tests
i == len-1). -/
def networkBlocks (selfName : String) (netMap : NetBuckets) : List String → List String
  | [] => []
  | [net] => netBlock selfName netMap TreeEnd TreeSpace net
  | net :: net2 :: t =>
    netBlock selfName netMap TreeBranch TreeVertical net
      ++ networkBlocks selfName netMap (net2 :: t)

/-- PrintContainerTree from internal/output/reachability.go, as the list of
lines written: header, then the blocks of the sorted copy of the
container's network list. -/
def printContainerTree (c : ContainerInfo) (netMap : NetBuckets) : List String :=
  ("Container: " ++ c.Name) :: networkBlocks c.Name netMap (sortStrings c.Networks)

/-- Text written to the sink by a renderer whose lines are ls: each line
followed by one newline, in order. -/
def renderLines (ls : List String) : String :=
  ls.foldl (fun acc line => acc ++ line ++ "\n") ""

/-- Specification-side description of the reachability lines under a
connects-to label, following the amended claim wording: an empty resolver
result yields exactly one line, the continuation indent plus four extra
spaces, the END glyph and the none marker; a non-empty result yields one
line per reachable name, BRANCH-prefixed except the last which is
END-prefixed. -/
def specConnects (ind : String) : List String → List String
  | [] => [ind ++ "    " ++ TreeEnd ++ " (none)"]
  | o :: t =>
    ((o :: t).dropLast.map (fun x => ind ++ "    " ++ TreeBranch ++ " " ++ x))
      ++ [ind ++ "    " ++ TreeEnd ++ " " ++ (o :: t).getLast (List.cons_ne_nil o t)]

/-- Specification-side description of one network block of the container
tree: network line, connects-to label line, then the reachability lines of
specConnects. -/
def specNetBlock (selfName : String) (m : NetBuckets) (g ind net : String) : List String :=
  (g ++ " Network: " ++ net) ::
  (ind ++ TreeEnd ++ " connects to:") ::
  specConnects ind (ReachableContainers selfName net m)

/-- Specification-side description of the container tree: header, then the
blocks of the sorted network list, BRANCH and VERTICAL for every network
before the last, END and SPACE for the last. -/
def specContainerTree (c : ContainerInfo) (m : NetBuckets) : List String :=
  ("Container: " ++ c.Name) ::
    ((sortStrings c.Networks).dropLast.flatMap
        (fun net => specNetBlock c.Name m TreeBranch TreeVertical net)
      ++ ((sortStrings c.Networks).getLast?.elim []
          (fun net => specNetBlock c.Name m TreeEnd TreeSpace net)))

/-! ## Order properties of the string comparison -/

theorem strLeB_refl : ∀ (a : List Char), strLeB a a = true
  | [] => rfl
  | x :: as => by simp [strLeB, strLeB_refl as]

theorem strLeB_total : ∀ (a b : List Char), strLeB a b = true ∨ strLeB b a = true
  | [], _ => Or.inl rfl
  | _ :: _, [] => Or.inr rfl
  | x :: as, y :: bs => by
    by_cases hxy : x = y
    · subst hxy
      simpa [strLeB] using strLeB_total as bs
    · rcases lt_trichotomy x y with h | h | h
      · exact Or.inl (by simp [strLeB, hxy, h])
      · exact absurd h hxy
      · exact Or.inr (by simp [strLeB, Ne.symm hxy, h])

theorem strLeB_trans : ∀ (a b c : List Char),
    strLeB a b = true → strLeB b c = true → strLeB a c = true
  | [], _, _, _, _ => rfl
  | _ :: _, [], _, hab, _ => by simp [strLeB] at hab
  | _ :: _, _ :: _, [], _, hbc => by simp [strLeB] at hbc
  | x :: as, y :: bs, z :: cs, hab, hbc => by
    by_cases hxy : x = y <;> by_cases hyz : y = z
    · subst hxy; subst hyz
      simp only [strLeB, if_pos rfl] at hab hbc ⊢
      exact strLeB_trans as bs cs hab hbc
    · subst hxy
      simp only [strLeB, if_neg hyz, decide_eq_true_eq] at hbc
      simp [strLeB, if_neg hyz, hbc]
    · subst hyz
      simp only [strLeB, if_neg hxy, decide_eq_true_eq] at hab
      simp [strLeB, if_neg hxy, hab]
    · simp only [strLeB, if_neg hxy, if_neg hyz, decide_eq_true_eq] at hab hbc
      have hxz : x < z := lt_trans hab hbc
      simp [strLeB, if_neg (ne_of_lt hxz), hxz]

theorem strLeB_antisymm : ∀ (a b : List Char),
    strLeB a b = true → strLeB b a = true → a = b
  | [], [], _, _ => rfl
  | [], _ :: _, _, hba => by simp [strLeB] at hba
  | _ :: _, [], hab, _ => by simp [strLeB] at hab
  | x :: as, y :: bs, hab, hba => by
    by_cases hxy : x = y
    · subst hxy
      simp only [strLeB, if_pos rfl] at hab hba
      exact congrArg _ (strLeB_antisymm as bs hab hba)
    · simp only [strLeB, if_neg hxy, if_neg (Ne.symm hxy), decide_eq_true_eq] at hab hba
      exact absurd hab (not_lt.mpr hba.le)

theorem strLe_refl (a : String) : strLe a a = true := strLeB_refl a.data

theorem strLe_total (a b : String) : strLe a b = true ∨ strLe b a = true :=
  strLeB_total a.data b.data

theorem strLe_trans {a b c : String} (h1 : strLe a b = true) (h2 : strLe b c = true) :
    strLe a c = true :=
  strLeB_trans a.data b.data c.data h1 h2

theorem strLe_antisymm {a b : String} (h1 : strLe a b = true) (h2 : strLe b a = true) :
    a = b :=
  String.ext (strLeB_antisymm a.data b.data h1 h2)

instance : IsTrans String strLeP :=
  ⟨fun _ _ _ => strLe_trans⟩

instance : IsTotal String strLeP :=
  ⟨strLe_total⟩

instance : IsTrans ContainerInfo nameLeP :=
  ⟨fun _ _ _ => strLe_trans⟩

instance : IsTotal ContainerInfo nameLeP :=
  ⟨fun a b => strLe_total a.Name b.Name⟩

theorem sortStrings_perm (l : List String) : (sortStrings l).Perm l :=
  List.perm_insertionSort strLeP l

theorem sortStrings_sorted (l : List String) :
    (sortStrings l).Pairwise (fun a b => strLe a b = true) :=
  List.sorted_insertionSort strLeP l

theorem sortByName_perm (l : List ContainerInfo) : (sortByName l).Perm l :=
  List.perm_insertionSort nameLeP l

theorem sortByName_sorted (l : List ContainerInfo) :
    (sortByName l).Pairwise (fun a b => strLe a.Name b.Name = true) :=
  List.sorted_insertionSort nameLeP l

/-! ## Characterization of the container map -/

/-- Resolved display name of a raw record. -/
def resolvedName (r : RawContainer) : String := sanitizeContainerName r.Names

theorem buildContainerMap_fold (l : List RawContainer)
    (acc : String → Option ContainerInfo) (k : String) :
    (l.foldl
      (fun m cont =>
        let name := sanitizeContainerName cont.Names
        fun k2 => if k2 = name then some (buildInfo cont) else m k2) acc) k
    = ((l.reverse.find? (fun r => resolvedName r == k)).map buildInfo).or (acc k) := by
  induction l generalizing acc with
  | nil => simp
  | cons r t ih =>
    simp only [List.foldl_cons, List.reverse_cons, List.find?_append]
    rw [ih]
    cases h : t.reverse.find? (fun r => resolvedName r == k) with
    | some r2 => rfl
    | none =>
      simp only [Option.map_none', Option.none_or]
      by_cases hk : resolvedName r == k
      · have hk2 : k = sanitizeContainerName r.Names := (eq_of_beq hk).symm
        simp [List.find?_cons, hk, ← hk2]
      · have hk2 : ¬ k = sanitizeContainerName r.Names := fun he =>
          hk (beq_iff_eq.mpr he.symm)
        simp [List.find?_cons, hk, hk2]

/-- Lookup in the container map is the last raw record whose resolved name
is the key, converted: last-write-wins, no merge. -/
theorem buildContainerMap_eq (l : List RawContainer) (k : String) :
    buildContainerMap l k
    = (l.reverse.find? (fun r => resolvedName r == k)).map buildInfo := by
  have h := buildContainerMap_fold l (fun _ => none) k
  simpa [buildContainerMap] using h

theorem buildContainerMap_eq_none (l : List RawContainer) (k : String)
    (h : ∀ r ∈ l, resolvedName r ≠ k) : buildContainerMap l k = none := by
  rw [buildContainerMap_eq]
  have hf : l.reverse.find? (fun r => resolvedName r == k) = none :=
    List.find?_eq_none.mpr (fun x hx => by
      simpa using h x (List.mem_reverse.mp hx))
  simp [hf]

theorem buildContainerMap_isSome (l : List RawContainer) (r : RawContainer)
    (hr : r ∈ l) : ∃ ci, buildContainerMap l (resolvedName r) = some ci := by
  rw [buildContainerMap_eq]
  cases hf : l.reverse.find? (fun x => resolvedName x == resolvedName r) with
  | some r2 => exact ⟨buildInfo r2, rfl⟩
  | none =>
    exact absurd (List.find?_eq_none.mp hf r (List.mem_reverse.mpr hr))
      (by simp)

theorem resolvedName_inj {l : List RawContainer}
    (h : (l.map resolvedName).Nodup)
    {x y : RawContainer} (hx : x ∈ l) (hy : y ∈ l)
    (hxy : resolvedName x = resolvedName y) : x = y :=
  List.inj_on_of_nodup_map h hx hy hxy

/-- With pairwise-distinct resolved names, lookup at a record's name yields
exactly that record's conversion. -/
theorem buildContainerMap_lookup_nodup (l : List RawContainer)
    (h : (l.map resolvedName).Nodup) (r : RawContainer) (hr : r ∈ l) :
    buildContainerMap l (resolvedName r) = some (buildInfo r) := by
  rw [buildContainerMap_eq]
  cases hf : l.reverse.find? (fun x => resolvedName x == resolvedName r) with
  | none =>
    exact absurd (List.find?_eq_none.mp hf r (List.mem_reverse.mpr hr))
      (by simp)
  | some r2 =>
    have hr2 : r2 ∈ l := List.mem_reverse.mp (List.mem_of_find?_eq_some hf)
    have hname : resolvedName r2 = resolvedName r := by
      simpa using List.find?_some hf
    rw [resolvedName_inj h hr2 hr hname]
    rfl

/-! ## Characterization of the network buckets -/

/-- The value appended into a bucket for a record: the finished container
map's entry for that record's resolved name (the getD default is never hit,
since every record's name is a key of the map). -/
def rawBucketValue (cm : String → Option ContainerInfo) (cont : RawContainer) : ContainerInfo :=
  (cm (sanitizeContainerName cont.Names)).getD
    (NewContainerInfo (sanitizeContainerName cont.Names))

/-- The bucket of network k as appended, before sorting: one entry per
occurrence of k among each record's network-map keys, in record order, each
entry the container map's value for that record's name. -/
def rawBucket (l : List RawContainer) (k : String) : List ContainerInfo :=
  l.flatMap (fun cont =>
    (cont.Networks.filter (fun p => p.1 == k)).map
      (fun _ => rawBucketValue (buildContainerMap l) cont))

theorem netLookup_eq (m : NetBuckets) (k : String) :
    netLookup m k = ((m.find? (fun p => p.1 == k)).map Prod.snd).getD [] := by
  cases h : m.find? (fun p => p.1 == k) <;> simp [netLookup, h]

theorem find?_map_fst (m : NetBuckets)
    (g : String × List ContainerInfo → String × List ContainerInfo)
    (hg : ∀ p, (g p).1 = p.1) (k : String) :
    (m.map g).find? (fun p => p.1 == k) = (m.find? (fun p => p.1 == k)).map g := by
  induction m with
  | nil => rfl
  | cons p t ih =>
    by_cases h : (p.1 == k) = true
    · have h2 : ((g p).1 == k) = true := by rw [hg p]; exact h
      rw [List.map_cons, List.find?_cons_of_pos t h,
        List.find?_cons_of_pos (t.map g) h2, Option.map_some']
    · have h2 : ¬ ((g p).1 == k) = true := by rw [hg p]; exact h
      rw [List.map_cons, List.find?_cons_of_neg t h,
        List.find?_cons_of_neg (t.map g) h2, ih]

theorem netLookup_netAppend (m : NetBuckets) (a k : String) (v : ContainerInfo) :
    netLookup (netAppend m a v) k
    = if k = a then netLookup m k ++ [v] else netLookup m k := by
  rw [netAppend]
  by_cases hany : m.any (fun p => p.1 == a)
  · rw [if_pos hany, netLookup_eq,
      find?_map_fst m (fun p => if p.1 == a then (p.1, p.2 ++ [v]) else p)
        (fun p => by by_cases h : (p.1 == a) = true <;> simp [h]) k,
      netLookup_eq]
    cases hf : m.find? (fun p => p.1 == k) with
    | some p =>
      have hp := List.find?_some hf
      simp only [beq_iff_eq] at hp
      by_cases hka : k = a
      · simp [hp, hka]
      · simp [hp, hka]
    | none =>
      have hka : k ≠ a := by
        intro he
        subst he
        obtain ⟨p, hpm, hpk⟩ := List.any_eq_true.mp hany
        exact absurd (List.find?_eq_none.mp hf p hpm) (by simpa using hpk)
      simp [hka]
  · rw [if_neg hany, netLookup_eq, List.find?_append, netLookup_eq]
    cases hf : m.find? (fun p => p.1 == k) with
    | some p =>
      have hp := List.find?_some hf
      simp only [beq_iff_eq] at hp
      have hka : k ≠ a := by
        intro he
        apply hany
        refine List.any_eq_true.mpr ⟨p, List.mem_of_find?_eq_some hf, ?_⟩
        simp [hp, he]
      simp [hka]
    | none =>
      by_cases hka : k = a
      · subst hka
        simp [List.find?_cons, Option.none_or]
      · have hak : (a == k) = false := by simpa using fun h => hka h.symm
        simp [List.find?_cons, hak, hka]

theorem netLookup_foldNets (nets : List (String × Option EndpointSettings))
    (v : ContainerInfo) (m : NetBuckets) (k : String) :
    netLookup (nets.foldl (fun m2 p => netAppend m2 p.1 v) m) k
    = netLookup m k ++ (nets.filter (fun p => p.1 == k)).map (fun _ => v) := by
  induction nets generalizing m with
  | nil => simp
  | cons p t ih =>
    simp only [List.foldl_cons]
    rw [ih, netLookup_netAppend]
    by_cases hk : k = p.1
    · have : (p.1 == k) = true := by simp [hk]
      simp [List.filter_cons, this, hk]
    · have : (p.1 == k) = false := by simpa using fun h => hk h.symm
      simp [List.filter_cons, this, hk]

theorem netLookup_foldRecords (l : List RawContainer)
    (cm : String → Option ContainerInfo) (m : NetBuckets) (k : String) :
    netLookup (l.foldl
      (fun m0 cont =>
        let name := sanitizeContainerName cont.Names
        let ci := (cm name).getD (NewContainerInfo name)
        cont.Networks.foldl (fun m2 p => netAppend m2 p.1 ci) m0) m) k
    = netLookup m k
      ++ l.flatMap (fun cont =>
          (cont.Networks.filter (fun p => p.1 == k)).map
            (fun _ => rawBucketValue cm cont)) := by
  induction l generalizing m with
  | nil => simp
  | cons r t ih =>
    simp only [List.foldl_cons]
    rw [ih, netLookup_foldNets]
    simp [rawBucketValue]

theorem netLookup_sortPhase (m : NetBuckets) (k : String) :
    netLookup (m.map (fun p => (p.1, sortByName p.2))) k
    = sortByName (netLookup m k) := by
  rw [netLookup_eq, netLookup_eq,
    find?_map_fst m (fun p => (p.1, sortByName p.2)) (fun p => rfl) k]
  cases hf : m.find? (fun p => p.1 == k) with
  | some p => simp
  | none => simp [sortByName]

/-- The map built by BuildNetworkToContainersMap, observed at any network
name, is the name-sorted bucket of appended container-map copies. -/
theorem netLookup_build (l : List RawContainer) (k : String) :
    netLookup (buildNetworkToContainersMap l) k = sortByName (rawBucket l k) := by
  unfold buildNetworkToContainersMap
  rw [netLookup_sortPhase, netLookup_foldRecords]
  simp [rawBucket, netLookup]

/-! ## Structure of converted records -/

theorem addAlias_fst_Name (c : ContainerInfo) (a : String) :
    ((c.addAlias a).1).Name = c.Name := by
  rw [ContainerInfo.addAlias]
  by_cases h : a ∈ c.Aliases <;> simp [h]

theorem addAlias_fst_Networks (c : ContainerInfo) (a : String) :
    ((c.addAlias a).1).Networks = c.Networks := by
  rw [ContainerInfo.addAlias]
  by_cases h : a ∈ c.Aliases <;> simp [h]

theorem foldAliases_Name (as : List String) (c : ContainerInfo) :
    (as.foldl (fun c a => (c.addAlias a).1) c).Name = c.Name := by
  induction as generalizing c with
  | nil => rfl
  | cons a t ih => rw [List.foldl_cons, ih, addAlias_fst_Name]

theorem foldAliases_Networks (as : List String) (c : ContainerInfo) :
    (as.foldl (fun c a => (c.addAlias a).1) c).Networks = c.Networks := by
  induction as generalizing c with
  | nil => rfl
  | cons a t ih => rw [List.foldl_cons, ih, addAlias_fst_Networks]

theorem addNetwork_fst_Name (c : ContainerInfo) (n : String) :
    ((c.addNetwork n).1).Name = c.Name := by
  rw [ContainerInfo.addNetwork]
  by_cases h : n ∈ c.Networks <;> simp [h]

theorem addNetwork_mem (c : ContainerInfo) (n x : String) :
    x ∈ ((c.addNetwork n).1).Networks ↔ x ∈ c.Networks ∨ x = n := by
  rw [ContainerInfo.addNetwork]
  by_cases h : n ∈ c.Networks
  · rw [if_pos (by simpa using h)]
    constructor
    · exact Or.inl
    · rintro (h2 | rfl)
      · exact h2
      · exact h
  · rw [if_neg (by simpa using h)]
    simp [List.mem_append]

theorem addEndpoint_Name (ci : ContainerInfo) (n : String)
    (s : Option EndpointSettings) : (addEndpoint ci n s).Name = ci.Name := by
  cases s with
  | none => exact addNetwork_fst_Name ci n
  | some s => rw [addEndpoint, foldAliases_Name]; exact addNetwork_fst_Name ci n

theorem addEndpoint_mem (ci : ContainerInfo) (n : String)
    (s : Option EndpointSettings) (x : String) :
    x ∈ (addEndpoint ci n s).Networks ↔ x ∈ ci.Networks ∨ x = n := by
  cases s with
  | none => exact addNetwork_mem ci n x
  | some s => rw [addEndpoint, foldAliases_Networks]; exact addNetwork_mem ci n x

theorem foldEndpoints_Name (nets : List (String × Option EndpointSettings))
    (ci : ContainerInfo) :
    (nets.foldl (fun ci p => addEndpoint ci p.1 p.2) ci).Name = ci.Name := by
  induction nets generalizing ci with
  | nil => rfl
  | cons p t ih => rw [List.foldl_cons, ih, addEndpoint_Name]

theorem foldEndpoints_mem (nets : List (String × Option EndpointSettings))
    (ci : ContainerInfo) (x : String) :
    x ∈ (nets.foldl (fun ci p => addEndpoint ci p.1 p.2) ci).Networks
    ↔ x ∈ ci.Networks ∨ x ∈ nets.map Prod.fst := by
  induction nets generalizing ci with
  | nil => simp
  | cons p t ih =>
    rw [List.foldl_cons, ih]
    rw [addEndpoint_mem]
    simp [or_assoc]

theorem buildInfo_Name (r : RawContainer) : (buildInfo r).Name = resolvedName r := by
  rw [buildInfo, foldEndpoints_Name]; rfl

theorem buildInfo_mem_Networks (r : RawContainer) (x : String) :
    x ∈ (buildInfo r).Networks ↔ x ∈ r.Networks.map Prod.fst := by
  rw [buildInfo, foldEndpoints_mem]
  simp [NewContainerInfo]

theorem rawBucketValue_Name (l : List RawContainer) (r : RawContainer) :
    (rawBucketValue (buildContainerMap l) r).Name = resolvedName r := by
  rw [rawBucketValue, buildContainerMap_eq]
  cases hf : l.reverse.find? (fun x => resolvedName x == sanitizeContainerName r.Names) with
  | none => simp [NewContainerInfo, resolvedName]
  | some r2 =>
    have hp := List.find?_some hf
    simp only [beq_iff_eq] at hp
    rw [Option.map_some', Option.getD_some, buildInfo_Name]
    exact hp

theorem rawBucketValue_nodup (l : List RawContainer)
    (h : (l.map resolvedName).Nodup) (r : RawContainer) (hr : r ∈ l) :
    rawBucketValue (buildContainerMap l) r = buildInfo r := by
  rw [rawBucketValue]
  rw [show sanitizeContainerName r.Names = resolvedName r from rfl]
  rw [buildContainerMap_lookup_nodup l h r hr]
  rfl

theorem flatMap_congr_mem {α β : Type} (l : List α) (f g : α → List β)
    (h : ∀ a ∈ l, f a = g a) : l.flatMap f = l.flatMap g := by
  induction l with
  | nil => rfl
  | cons a t ih =>
    rw [List.flatMap_cons, List.flatMap_cons, h a (List.mem_cons_self a t),
      ih (fun x hx => h x (List.mem_cons_of_mem a hx))]

/-- Two name-sorted permutations of each other are equal when equal names
force equal elements. -/
theorem sorted_perm_eq_of_nameInj (a : List ContainerInfo) :
    ∀ (b : List ContainerInfo), a.Perm b →
    a.Pairwise (fun x y => strLe x.Name y.Name = true) →
    b.Pairwise (fun x y => strLe x.Name y.Name = true) →
    (∀ x ∈ a, ∀ y ∈ a, x.Name = y.Name → x = y) →
    a = b := by
  induction a with
  | nil =>
    intro b hp _ _ _
    exact (List.Perm.eq_nil hp.symm).symm
  | cons x t ih =>
    intro b hp ha hb hne
    cases b with
    | nil => exact absurd (List.Perm.eq_nil hp) (List.cons_ne_nil x t)
    | cons y s =>
      have hxb : x ∈ y :: s := hp.subset (List.mem_cons_self x t)
      have hya : y ∈ x :: t := hp.symm.subset (List.mem_cons_self y s)
      have hxy : x = y := by
        rcases List.mem_cons.mp hxb with he | hxs
        · exact he
        rcases List.mem_cons.mp hya with he | hyt
        · exact he.symm
        · have h1 : strLe x.Name y.Name = true :=
            (List.pairwise_cons.mp ha).1 y hyt
          have h2 : strLe y.Name x.Name = true :=
            (List.pairwise_cons.mp hb).1 x hxs
          exact hne x (List.mem_cons_self x t) y (List.mem_cons_of_mem x hyt)
            (strLe_antisymm h1 h2)
      subst hxy
      have hts : t.Perm s := hp.cons_inv
      have ht : t = s :=
        ih s hts (List.pairwise_cons.mp ha).2 (List.pairwise_cons.mp hb).2
          (fun x2 hx2 y2 hy2 => hne x2 (List.mem_cons_of_mem x hx2)
            y2 (List.mem_cons_of_mem x hy2))
      rw [ht]

/-! ## Permutation invariance of the built maps (distinct resolved names) -/

theorem buildContainerMap_perm (l l2 : List RawContainer)
    (h : (l.map resolvedName).Nodup) (hp : l.Perm l2) (k : String) :
    buildContainerMap l k = buildContainerMap l2 k := by
  have h2 : (l2.map resolvedName).Nodup := ((hp.map resolvedName).nodup_iff).mp h
  by_cases hex : ∃ r, r ∈ l ∧ resolvedName r = k
  · obtain ⟨r, hr, hk⟩ := hex
    subst hk
    rw [buildContainerMap_lookup_nodup l h r hr,
      buildContainerMap_lookup_nodup l2 h2 r (hp.subset hr)]
  · push_neg at hex
    rw [buildContainerMap_eq_none l k hex,
      buildContainerMap_eq_none l2 k (fun r hr => hex r (hp.symm.subset hr))]

theorem rawBucket_nodup_eq (l : List RawContainer)
    (h : (l.map resolvedName).Nodup) (k : String) :
    rawBucket l k
    = l.flatMap (fun cont =>
        (cont.Networks.filter (fun p => p.1 == k)).map (fun _ => buildInfo cont)) := by
  rw [rawBucket]
  exact flatMap_congr_mem l _ _
    (fun cont hc => by rw [rawBucketValue_nodup l h cont hc])

theorem rawBucket_perm (l l2 : List RawContainer)
    (h : (l.map resolvedName).Nodup) (hp : l.Perm l2) (k : String) :
    (rawBucket l k).Perm (rawBucket l2 k) := by
  have h2 : (l2.map resolvedName).Nodup := ((hp.map resolvedName).nodup_iff).mp h
  rw [rawBucket_nodup_eq l h k, rawBucket_nodup_eq l2 h2 k]
  exact List.Perm.flatMap_right _ hp

theorem mem_rawBucket_nodup (l : List RawContainer)
    (h : (l.map resolvedName).Nodup) (k : String) (x : ContainerInfo)
    (hx : x ∈ rawBucket l k) :
    ∃ r, r ∈ l ∧ x = buildInfo r ∧ k ∈ r.Networks.map Prod.fst := by
  rw [rawBucket_nodup_eq l h k] at hx
  obtain ⟨r, hr, hx2⟩ := List.mem_flatMap.mp hx
  obtain ⟨p, hp2, hx3⟩ := List.mem_map.mp hx2
  have hpk : p.1 = k := by
    have := (List.mem_filter.mp hp2).2
    simpa using this
  refine ⟨r, hr, hx3.symm, ?_⟩
  exact hpk ▸ List.mem_map.mpr ⟨p, (List.mem_filter.mp hp2).1, rfl⟩

theorem buckets_eq_of_perm (l l2 : List RawContainer)
    (h : (l.map resolvedName).Nodup) (hp : l.Perm l2) (k : String) :
    netLookup (buildNetworkToContainersMap l) k
    = netLookup (buildNetworkToContainersMap l2) k := by
  rw [netLookup_build, netLookup_build]
  apply sorted_perm_eq_of_nameInj
  · exact (sortByName_perm _).trans
      ((rawBucket_perm l l2 h hp k).trans (sortByName_perm _).symm)
  · exact sortByName_sorted _
  · exact sortByName_sorted _
  · intro x hx y hy hname
    have hx2 : x ∈ rawBucket l k := (sortByName_perm _).subset hx
    have hy2 : y ∈ rawBucket l k := (sortByName_perm _).subset hy
    obtain ⟨r, hr, rfl, _⟩ := mem_rawBucket_nodup l h k x hx2
    obtain ⟨r2, hr2, rfl, _⟩ := mem_rawBucket_nodup l h k y hy2
    have hrr : resolvedName r = resolvedName r2 := by
      rw [← buildInfo_Name, ← buildInfo_Name]
      exact hname
    rw [resolvedName_inj h hr hr2 hrr]

/-! ## Bucket membership counts under well-formed records -/

theorem filter_nodup_keys (nets : List (String × Option EndpointSettings))
    (k : String) (h : (nets.map Prod.fst).Nodup) (v : ContainerInfo) :
    (nets.filter (fun p => p.1 == k)).map (fun _ => v)
    = if (nets.map Prod.fst).contains k then [v] else [] := by
  induction nets with
  | nil => simp
  | cons p t ih =>
    have h1 : p.1 ∉ t.map Prod.fst ∧ (t.map Prod.fst).Nodup := by
      rw [List.map_cons] at h
      exact List.nodup_cons.mp h
    by_cases hk : p.1 = k
    · subst hk
      have hnone : t.filter (fun q => q.1 == p.1) = [] := by
        apply List.filter_eq_nil_iff.mpr
        intro q hq
        simp only [beq_iff_eq]
        intro he
        exact h1.1 (List.mem_map.mpr ⟨q, hq, he⟩)
      simp [List.filter_cons, hnone, List.contains_cons]
    · have hpk : (p.1 == k) = false := by simpa using hk
      simp only [List.filter_cons, hpk, Bool.false_eq_true, if_false]
      rw [ih h1.2]
      have hkp : (k == p.1) = false := by simpa using fun h2 => hk h2.symm
      rw [List.map_cons,
        show (p.1 :: List.map Prod.fst t).contains k
          = (k == p.1 || (List.map Prod.fst t).contains k) from rfl, hkp,
        Bool.false_or]

theorem flatMap_if_eq_filter_map {α β : Type} (l : List α) (c : α → Bool) (f : α → β) :
    l.flatMap (fun a => if c a then [f a] else []) = (l.filter c).map f := by
  induction l with
  | nil => rfl
  | cons a t ih =>
    rw [List.flatMap_cons, ih, List.filter_cons]
    by_cases h : c a <;> simp [h]

theorem rawBucket_wf_eq (l : List RawContainer)
    (h : (l.map resolvedName).Nodup)
    (hw : ∀ r ∈ l, (r.Networks.map Prod.fst).Nodup) (k : String) :
    rawBucket l k
    = (l.filter (fun r => (r.Networks.map Prod.fst).contains k)).map buildInfo := by
  rw [rawBucket_nodup_eq l h k]
  rw [flatMap_congr_mem l _
    (fun cont => if (cont.Networks.map Prod.fst).contains k then [buildInfo cont] else [])
    (fun cont hc => filter_nodup_keys cont.Networks k (hw cont hc) (buildInfo cont))]
  exact flatMap_if_eq_filter_map l _ buildInfo

/-! ## Renderer structure lemmas -/

theorem connectsLines_eq_spec (ind : String) :
    ∀ others, connectsLines ind others = specConnects ind others
  | [] => rfl
  | [o] => rfl
  | o :: o2 :: t => by
    rw [connectsLines, connectsLines_eq_spec ind (o2 :: t)]
    cases t with
    | nil => rfl
    | cons o3 t2 => rfl

theorem netBlock_eq_spec (selfName : String) (m : NetBuckets) (g ind net : String) :
    netBlock selfName m g ind net = specNetBlock selfName m g ind net := by
  rw [netBlock, specNetBlock, connectsLines_eq_spec]

theorem networkBlocks_eq_spec (selfName : String) (m : NetBuckets) :
    ∀ nets, networkBlocks selfName m nets
      = nets.dropLast.flatMap (fun net => specNetBlock selfName m TreeBranch TreeVertical net)
        ++ nets.getLast?.elim [] (fun net => specNetBlock selfName m TreeEnd TreeSpace net)
  | [] => rfl
  | [net] => by
    rw [networkBlocks, netBlock_eq_spec]
    rfl
  | net :: net2 :: t => by
    rw [networkBlocks, networkBlocks_eq_spec selfName m (net2 :: t), netBlock_eq_spec]
    rw [show (net :: net2 :: t).dropLast = net :: (net2 :: t).dropLast from rfl]
    rw [show (net :: net2 :: t).getLast? = (net2 :: t).getLast? from rfl]
    rw [List.flatMap_cons, List.append_assoc]

/-! ## Claim theorems -/

/-- C1: ReachableContainers(self, N, M) returns exactly the names of the
entries of bucket M[N] whose Name is not equal to self, sorted ascending;
if N is not a key of M the result is empty, and the result never contains
self. -/
theorem C1_reachable_containers (self network : String) (netMap : NetBuckets) :
    (ReachableContainers self network netMap).Perm
      (((netLookup netMap network).filter (fun c => c.Name ≠ self)).map (fun c => c.Name))
    ∧ (ReachableContainers self network netMap).Pairwise (fun a b => strLe a b = true)
    ∧ (network ∉ netMap.map Prod.fst → ReachableContainers self network netMap = [])
    ∧ self ∉ ReachableContainers self network netMap := by
  refine ⟨sortStrings_perm _, sortStrings_sorted _, ?_, ?_⟩
  · intro hn
    have hl : netLookup netMap network = [] := by
      rw [netLookup_eq]
      have hfind : netMap.find? (fun p => p.1 == network) = none := by
        apply List.find?_eq_none.mpr
        intro p hp h
        simp only [beq_iff_eq] at h
        exact hn (h ▸ List.mem_map.mpr ⟨p, hp, rfl⟩)
      rw [hfind]
      rfl
    rw [ReachableContainers, hl]
    rfl
  · intro hs
    have hmem := (sortStrings_perm _).subset hs
    obtain ⟨c, hc, hcn⟩ := List.mem_map.mp hmem
    have h2 := (List.mem_filter.mp hc).2
    simp only [decide_eq_true_eq] at h2
    exact h2 hcn

/-- C1 witness: a network absent from the map yields the empty result. -/
theorem C1_reachable_containers_witness :
    ReachableContainers "api" "storage" [("backend", [⟨"db", [], ["backend"]⟩])] = [] :=
  (C1_reachable_containers "api" "storage"
    [("backend", [⟨"db", [], ["backend"]⟩])]).2.2.1 (by decide)

/-- C6: PrintNetworkTree on an empty container list writes exactly the
header line and the no-containers line, each newline-terminated, and
nothing else (style functions are identity). -/
theorem C6_empty_network_render (n d : String) :
    renderLines (printNetworkTree ⟨n, d⟩ [])
    = "Network: " ++ n ++ " (" ++ d ++ ")" ++ "\n" ++ "└── (no containers)" ++ "\n" := by
  have h1 : printNetworkTree ⟨n, d⟩ []
      = ["Network: " ++ n ++ " (" ++ d ++ ")", TreeEnd ++ " (no containers)"] := rfl
  rw [h1, renderLines, List.foldl_cons, List.foldl_cons, List.foldl_nil]
  apply String.ext
  simp [String.data_append, TreeEnd]

/-- C5 counterexample: for an isolated container the line under
connects-to is not a bare none line; it carries the END glyph. -/
theorem C5_none_line_counterexample :
    printContainerTree ⟨"web", [], ["n"]⟩ []
      = ["Container: web", "└── Network: n", "    └── connects to:", "        └── (none)"]
    ∧ "        (none)" ∉ printContainerTree ⟨"web", [], ["n"]⟩ [] := by
  constructor
  · decide
  · decide

/-- C5 (amended): in PrintContainerTree, a network with an empty resolver
result emits under connects-to exactly one line, at that depth with
4-space extra indent and prefixed by the END glyph; a non-empty result
emits one glyph-prefixed line per reachable name, branch-prefixed except
the last which is end-prefixed. -/
theorem C5_connects_rendering (c : ContainerInfo) (m : NetBuckets) :
    printContainerTree c m = specContainerTree c m := by
  rw [printContainerTree, specContainerTree, networkBlocks_eq_spec]

/-- C7: AddAlias and AddNetwork are idempotent: on an absent value the
first call reports true and grows the set by one; a repeated call reports
false and leaves the record unchanged, for any value including the empty
string. -/
theorem C7_idempotent_add (c : ContainerInfo) (v : String) :
    ((c.addAlias v).1.addAlias v = ((c.addAlias v).1, false))
    ∧ (v ∉ c.Aliases → (c.addAlias v).2 = true
        ∧ (c.addAlias v).1.Aliases.length = c.Aliases.length + 1)
    ∧ ((c.addNetwork v).1.addNetwork v = ((c.addNetwork v).1, false))
    ∧ (v ∉ c.Networks → (c.addNetwork v).2 = true
        ∧ (c.addNetwork v).1.Networks.length = c.Networks.length + 1) := by
  refine ⟨?_, ?_, ?_, ?_⟩
  · have hv : v ∈ (c.addAlias v).1.Aliases := by
      rw [ContainerInfo.addAlias]
      by_cases h : v ∈ c.Aliases <;> simp [h]
    rw [ContainerInfo.addAlias, if_pos (by simpa using hv)]
  · intro h
    rw [ContainerInfo.addAlias, if_neg (by simpa using h)]
    simp
  · have hv : v ∈ (c.addNetwork v).1.Networks := by
      rw [ContainerInfo.addNetwork]
      by_cases h : v ∈ c.Networks <;> simp [h]
    rw [ContainerInfo.addNetwork, if_pos (by simpa using hv)]
  · intro h
    rw [ContainerInfo.addNetwork, if_neg (by simpa using h)]
    simp

/-- C7 witness: adding the empty-string alias and a network to a fresh
record. -/
theorem C7_idempotent_add_witness :
    ((NewContainerInfo "web").addAlias "").2 = true
    ∧ ((NewContainerInfo "web").addAlias "").1.Aliases.length = 1
    ∧ ((NewContainerInfo "web").addNetwork "bridge").2 = true
    ∧ ((NewContainerInfo "web").addNetwork "bridge").1.Networks.length = 1 := by
  have h1 := (C7_idempotent_add (NewContainerInfo "web") "").2.1 (by decide)
  have h2 := (C7_idempotent_add (NewContainerInfo "web") "bridge").2.2.2 (by decide)
  exact ⟨h1.1, h1.2, h2.1, h2.2⟩

/-- C9: removeAliasesFromContainers preserves length, maps each element to
one with the same Name and Networks and an empty alias list; the source
list is untouched (the transform reads the source and writes only a fresh
list, as in the Go code, which allocates a new slice and never assigns to
the input). -/
theorem C9_remove_aliases (l : List ContainerInfo) :
    (removeAliasesFromContainers l).length = l.length
    ∧ (∀ i : Nat, (removeAliasesFromContainers l)[i]?
        = (l[i]?).map (fun c => { Name := c.Name, Aliases := [], Networks := c.Networks }))
    ∧ (∀ c ∈ removeAliasesFromContainers l, c.Aliases = []) := by
  refine ⟨by simp [removeAliasesFromContainers], ?_, ?_⟩
  · intro i
    simp [removeAliasesFromContainers, List.getElem?_map]
  · intro c hc
    obtain ⟨c0, _, he⟩ := List.mem_map.mp hc
    rw [← he]

/-- C9 witness: Scenario D of the specification. -/
theorem C9_remove_aliases_witness :
    (removeAliasesFromContainers [⟨"web", ["www", "webapp"], ["bridge"]⟩])[0]?
      = some ⟨"web", [], ["bridge"]⟩
    ∧ (⟨"web", [], ["bridge"]⟩ : ContainerInfo).Aliases = [] := by
  constructor
  · exact ((C9_remove_aliases [⟨"web", ["www", "webapp"], ["bridge"]⟩]).2.1 0).trans
      (by decide)
  · exact (C9_remove_aliases [⟨"web", ["www", "webapp"], ["bridge"]⟩]).2.2
      ⟨"web", [], ["bridge"]⟩ (by decide)

/-- C8: the resolved display name is the first name entry with one leading
slash stripped if present; no entries resolve to the empty string; and
BuildContainerMap accepts a record with no names, keying its entry by the
empty string and carrying the record's data (its conversion buildInfo). -/
theorem C8_name_resolution :
    sanitizeContainerName [] = ""
    ∧ (∀ (s : String) (rest : List String),
        sanitizeContainerName (("/" ++ s) :: rest) = s)
    ∧ (∀ (s : String) (rest : List String), s.data.head? ≠ some '/' →
        sanitizeContainerName (s :: rest) = s)
    ∧ (∀ (l : List RawContainer) (r : RawContainer), r.Names = [] →
        buildContainerMap (l ++ [r]) "" = some (buildInfo r)) := by
  refine ⟨rfl, ?_, ?_, ?_⟩
  · intro s rest
    show trimOneSlash ("/" ++ s) = s
    have hd : ("/" ++ s).data = '/' :: s.data := by
      rw [String.data_append]
      rfl
    rw [trimOneSlash, hd]
    rfl
  · intro s rest hhead
    show trimOneSlash s = s
    rw [trimOneSlash]
    split
    · next heq =>
      exfalso
      apply hhead
      rw [heq]
      rfl
    · rfl
  · intro l r hnames
    rw [buildContainerMap_eq]
    have hrev : (l ++ [r]).reverse = r :: l.reverse := by simp
    rw [hrev]
    have hp : (resolvedName r == "") = true := by
      rw [resolvedName, hnames]
      rfl
    rw [List.find?_cons_of_pos (p := fun r => resolvedName r == "") l.reverse hp]
    rfl

/-- C8 witness: exactly one slash is stripped, a slash-free name is kept,
and a nameless record lands under the empty-string key. -/
theorem C8_name_resolution_witness :
    sanitizeContainerName ["//a"] = "/a"
    ∧ sanitizeContainerName ["web", "other"] = "web"
    ∧ buildContainerMap [⟨["/x"], []⟩, ⟨[], [("n", some ⟨["al"]⟩)]⟩] ""
      = some (buildInfo ⟨[], [("n", some ⟨["al"]⟩)]⟩) := by
  refine ⟨?_, ?_, ?_⟩
  · have h := C8_name_resolution.2.1 "/a" []
    rw [show ("/" ++ "/a" : String) = "//a" by decide] at h
    exact h
  · exact C8_name_resolution.2.2.1 "web" ["other"] (by decide)
  · exact C8_name_resolution.2.2.2 [⟨["/x"], []⟩] ⟨[], [("n", some ⟨["al"]⟩)]⟩ rfl

/-- C4: BuildContainerMap is last-write-wins with no merging: the lookup at
any key is the conversion of the last record resolving to that key; with
pairwise distinct resolved names there is exactly one entry per record,
keyed by its name; keys not resolved by any record are absent. -/
theorem C4_last_write_wins (l : List RawContainer) :
    (∀ k, buildContainerMap l k
      = (l.reverse.find? (fun r => resolvedName r == k)).map buildInfo)
    ∧ ((l.map resolvedName).Nodup →
        ∀ r ∈ l, buildContainerMap l (resolvedName r) = some (buildInfo r))
    ∧ (∀ k, (∀ r ∈ l, resolvedName r ≠ k) → buildContainerMap l k = none) :=
  ⟨buildContainerMap_eq l,
   fun h r hr => buildContainerMap_lookup_nodup l h r hr,
   fun k h => buildContainerMap_eq_none l k h⟩

/-- C4 witness: of two records resolving to web the second wins whole, and
with distinct names each record keeps its own entry. -/
theorem C4_last_write_wins_witness :
    buildContainerMap
      [⟨["/web"], [("n1", some ⟨["a1"]⟩)]⟩, ⟨["/web"], [("n2", some ⟨["a2"]⟩)]⟩] "web"
      = some (buildInfo ⟨["/web"], [("n2", some ⟨["a2"]⟩)]⟩)
    ∧ buildContainerMap [⟨["/a"], []⟩, ⟨["/b"], []⟩]
        (resolvedName (⟨["/a"], []⟩ : RawContainer))
      = some (buildInfo ⟨["/a"], []⟩) := by
  constructor
  · exact ((C4_last_write_wins _).1 "web").trans (by decide)
  · exact (C4_last_write_wins [⟨["/a"], []⟩, ⟨["/b"], []⟩]).2.1 (by decide)
      ⟨["/a"], []⟩ (by decide)

/-- C10: every bucket of BuildNetworkToContainersMap is the name-sorted
list of one entry per network-membership occurrence of each record, each
entry the finished container map's value for that record's resolved name
(rawBucket); consequently, with two records resolving to the same name,
every membership still appends an entry, all such entries equal the last
record's conversion, so a bucket can hold duplicate identical entries and
entries copied from a record other than the one declaring the network. -/
theorem C10_bucket_append_semantics :
    (∀ (l : List RawContainer) (k : String),
      netLookup (buildNetworkToContainersMap l) k = sortByName (rawBucket l k))
    ∧ netLookup (buildNetworkToContainersMap
        [⟨["/a"], [("n", none)]⟩, ⟨["/a"], [("n", none), ("m", none)]⟩]) "n"
      = [buildInfo ⟨["/a"], [("n", none), ("m", none)]⟩,
         buildInfo ⟨["/a"], [("n", none), ("m", none)]⟩]
    ∧ netLookup (buildNetworkToContainersMap
        [⟨["/a"], [("n", none)]⟩, ⟨["/a"], [("m", none)]⟩]) "n"
      = [buildInfo ⟨["/a"], [("m", none)]⟩]
    ∧ (buildInfo ⟨["/a"], [("m", none)]⟩).hasNetwork "n" = false :=
  ⟨fun l k => netLookup_build l k, by decide, by decide, by decide⟩

/-- C3 counterexample: with two records resolving to the same name, a
bucket entry need not have the bucket's network in its membership set. -/
theorem C3_bucket_membership_counterexample :
    ∃ ci ∈ netLookup (buildNetworkToContainersMap
      [⟨["/a"], [("n", none)]⟩, ⟨["/a"], [("m", none)]⟩]) "n",
      ci.hasNetwork "n" = false := by
  decide

/-- C3 (amended): when the records resolve to pairwise distinct names and
each record's network map has distinct keys, every entry of bucket N has N
in its membership set (HasNetwork is true), and bucket N holds exactly one
entry per record declaring N, keyed by that record's resolved name. -/
theorem C3_bucket_membership (l : List RawContainer)
    (h : (l.map resolvedName).Nodup)
    (hw : ∀ r ∈ l, (r.Networks.map Prod.fst).Nodup) :
    (∀ (k : String) (ci : ContainerInfo),
        ci ∈ netLookup (buildNetworkToContainersMap l) k → ci.hasNetwork k = true)
    ∧ (∀ k : String,
        ((netLookup (buildNetworkToContainersMap l) k).map (fun ci => ci.Name)).Perm
          ((l.filter (fun r => (r.Networks.map Prod.fst).contains k)).map resolvedName)) := by
  constructor
  · intro k ci hci
    rw [netLookup_build] at hci
    have hci2 : ci ∈ rawBucket l k := (sortByName_perm _).subset hci
    obtain ⟨r, hr, he, hk⟩ := mem_rawBucket_nodup l h k ci hci2
    subst he
    rw [ContainerInfo.hasNetwork]
    exact List.elem_eq_true_of_mem ((buildInfo_mem_Networks r k).mpr hk)
  · intro k
    rw [netLookup_build, rawBucket_wf_eq l h hw k]
    refine ((sortByName_perm _).map _).trans ?_
    rw [List.map_map]
    rw [show ((fun ci => ci.Name) ∘ buildInfo) = resolvedName from funext buildInfo_Name]

/-- C3 witness: Scenario A members carry their network. -/
theorem C3_bucket_membership_witness :
    (buildInfo ⟨["/api"], [("frontend", none), ("backend", none)]⟩).hasNetwork "frontend"
      = true :=
  (C3_bucket_membership
    [⟨["/api"], [("frontend", none), ("backend", none)]⟩, ⟨["/web"], [("frontend", none)]⟩]
    (by decide) (by decide)).1 "frontend"
    (buildInfo ⟨["/api"], [("frontend", none), ("backend", none)]⟩) (by decide)

/-- C2 counterexample: with two records resolving to the same name, a
permutation of the input changes a bucket. -/
theorem C2_sort_invariance_counterexample :
    ([(⟨["/web"], [("n1", some ⟨["x"]⟩)]⟩ : RawContainer),
      ⟨["/web"], [("n1", some ⟨["y"]⟩)]⟩]).Perm
      [⟨["/web"], [("n1", some ⟨["y"]⟩)]⟩, ⟨["/web"], [("n1", some ⟨["x"]⟩)]⟩]
    ∧ netLookup (buildNetworkToContainersMap
        [⟨["/web"], [("n1", some ⟨["x"]⟩)]⟩, ⟨["/web"], [("n1", some ⟨["y"]⟩)]⟩]) "n1"
      ≠ netLookup (buildNetworkToContainersMap
        [⟨["/web"], [("n1", some ⟨["y"]⟩)]⟩, ⟨["/web"], [("n1", some ⟨["x"]⟩)]⟩]) "n1" :=
  ⟨List.Perm.swap _ _ _, by decide⟩

/-- C2 (amended): when the records resolve to pairwise distinct names,
BuildNetworkToContainersMap yields identical buckets on any permutation of
the input; and on every input whatsoever, distinct names or not, every
bucket is sorted ascending by container name. -/
theorem C2_sort_invariance (l l2 : List RawContainer) :
    ((l.map resolvedName).Nodup → l.Perm l2 →
      ∀ k, netLookup (buildNetworkToContainersMap l) k
        = netLookup (buildNetworkToContainersMap l2) k)
    ∧ (∀ k, (netLookup (buildNetworkToContainersMap l) k).Pairwise
        (fun a b => strLe a.Name b.Name = true)) :=
  ⟨fun h hp k => buckets_eq_of_perm l l2 h hp k,
   fun k => by rw [netLookup_build]; exact sortByName_sorted _⟩

/-- C2 witness: swapping two distinct-name records leaves the bucket
unchanged. -/
theorem C2_sort_invariance_witness :
    netLookup (buildNetworkToContainersMap
      [⟨["/b"], [("n", none)]⟩, ⟨["/a"], [("n", none)]⟩]) "n"
    = netLookup (buildNetworkToContainersMap
      [⟨["/a"], [("n", none)]⟩, ⟨["/b"], [("n", none)]⟩]) "n" :=
  (C2_sort_invariance
    [⟨["/b"], [("n", none)]⟩, ⟨["/a"], [("n", none)]⟩]
    [⟨["/a"], [("n", none)]⟩, ⟨["/b"], [("n", none)]⟩]).1
    (by decide) (List.Perm.swap _ _ _) "n"
